import Mathlib

/-!
Verification development for the `mcp_oppwa` single-page web crawler
(`src/web_crawler/web_crawler.py`).  The Python extraction passes are
embedded shallowly: HTML documents become a tree of tagged nodes, text is
a `List Char`, Python dicts become ordered association lists, and the
external JSON parser (`json.loads`) is an abstract parameter
`parse : List Char → Option J` (returning `none` models a
`json.JSONDecodeError`).  BeautifulSoup's in-place `decompose` mutation
performed by `_extract_clean_text` is made explicit: that pass returns the
updated tree together with the text, and `crawl_page` threads the tree
through the passes in the order the Python dict literal evaluates them.
-/

namespace Oppwa

/-- ASCII whitespace stripped by Python's `str.strip()` (Unicode whitespace
beyond ASCII is not modelled). -/
def isSpacePy (c : Char) : Bool :=
  c = ' ' || c = '\t' || c = '\n' || c = '\r' || c = '\x0b' || c = '\x0c'

/-- Line-separator characters of Python's `str.splitlines()` (the ASCII ones;
a `"\r\n"` pair shows up as two separators, which only adds an empty line that
the later empty-fragment filter discards). -/
def isLineSep (c : Char) : Bool :=
  c = '\n' || c = '\r' || c = '\x0b' || c = '\x0c'

/-- Python `str.strip()`: drop leading and trailing whitespace. -/
def trimPy (l : List Char) : List Char :=
  (l.dropWhile isSpacePy).rdropWhile isSpacePy

/-- Prepend a character to the first piece of a split result. -/
def consHead (c : Char) : List (List Char) → List (List Char)
  | [] => [[c]]
  | h :: t => (c :: h) :: t

/-- Python `str.splitlines()`, as a split at every line-separator character. -/
def splitLinesPy : List Char → List (List Char)
  | [] => [[]]
  | c :: rest =>
    if isLineSep c then [] :: splitLinesPy rest
    else consHead c (splitLinesPy rest)

/-- Python `str.split("  ")`: split at each non-overlapping occurrence of two
consecutive spaces, scanning left to right. -/
def splitTwoSpaces : List Char → List (List Char)
  | [] => [[]]
  | [c] => [[c]]
  | c1 :: c2 :: rest =>
    if c1 = ' ' ∧ c2 = ' ' then [] :: splitTwoSpaces rest
    else consHead c1 (splitTwoSpaces (c2 :: rest))

/-- Python `' '.join(...)`. -/
def joinSpace : List (List Char) → List Char
  | [] => []
  | [f] => f
  | f :: rest => f ++ ' ' :: joinSpace rest

/-- The fragment pipeline of `_extract_clean_text`: split into lines, strip
each line, split each stripped line at double spaces, strip each fragment,
keep the non-empty fragments. -/
def fragmentsOf (l : List Char) : List (List Char) :=
  ((((splitLinesPy l).map trimPy).flatMap splitTwoSpaces).map trimPy).filter
    fun f => !f.isEmpty

/-- The whitespace normalization of `_extract_clean_text`: the surviving
fragments joined with single spaces. -/
def normalizeText (l : List Char) : List Char :=
  joinSpace (fragmentsOf l)

/-! ## The document model -/

/-! The child sequence of an element is its own inductive (`NodeList`) so
that the tree traversals below are structurally recursive. -/
mutual
/-- A parsed HTML node: either a text node or a tagged element with
attributes and children. -/
inductive Node where
  | text : List Char → Node
  | elem : String → List (String × String) → NodeList → Node
inductive NodeList where
  | nil : NodeList
  | cons : Node → NodeList → NodeList
end

/-- A parsed document (`BeautifulSoup` object): its list of top-level nodes. -/
abbrev Doc := NodeList

/-- Build a `NodeList` from list-literal syntax. -/
def nodes : List Node → NodeList
  | [] => .nil
  | n :: ns => .cons n (nodes ns)

/-- `get_text()` over a node sequence: concatenation of all string
descendants in document order. -/
def getTextL : NodeList → List Char
  | .nil => []
  | .cons (.text s) ns => s ++ getTextL ns
  | .cons (.elem _ _ cs) ns => getTextL cs ++ getTextL ns

/-- `get_text()` of a single node. -/
def getText : Node → List Char
  | .text s => s
  | .elem _ _ cs => getTextL cs

/-- `find_all(pred)` over a node sequence: all element nodes satisfying the
predicate, in document (pre)order; a matching element is listed before its
own matching descendants. -/
def findAllL (p : Node → Bool) : NodeList → List Node
  | .nil => []
  | .cons (.text _) ns => findAllL p ns
  | .cons (.elem t a cs) ns =>
    (if p (.elem t a cs) then [Node.elem t a cs] else [])
      ++ findAllL p cs ++ findAllL p ns

/-- `find(pred)`: the first matching element in document order, if any. -/
def findFirstL (p : Node → Bool) : NodeList → Option Node
  | .nil => none
  | .cons (.text _) ns => findFirstL p ns
  | .cons (.elem t a cs) ns =>
    if p (.elem t a cs) then some (.elem t a cs)
    else
      match findFirstL p cs with
      | some r => some r
      | none => findFirstL p ns

/-- Tag-name filter, as in `find_all('title')`. -/
def tagIs (t : String) (n : Node) : Bool :=
  match n with
  | .elem t2 _ _ => t2 = t
  | .text _ => false

/-- Cell filter of `_extract_tables`: `find_all(['td', 'th'])`. -/
def isCell (n : Node) : Bool := tagIs "td" n || tagIs "th" n

/-- Filter of `find_all('script', type='application/ld+json')`. -/
def isLdJsonScript (n : Node) : Bool :=
  match n with
  | .elem t attrs _ => t = "script" && attrs.lookup "type" == some "application/ld+json"
  | .text _ => false

/-- The effect of `for script in soup(["script", "style"]): script.decompose()`:
every `script` and `style` element is removed from the tree together with its
contents. -/
def stripScriptStyle : NodeList → NodeList
  | .nil => .nil
  | .cons (.text s) ns => .cons (.text s) (stripScriptStyle ns)
  | .cons (.elem t a cs) ns =>
    if t = "script" || t = "style" then stripScriptStyle ns
    else .cons (.elem t a (stripScriptStyle cs)) (stripScriptStyle ns)

/-- The child nodes of a node; `tag.find_all(...)` searches these and their
descendants (never the tag itself). -/
def Node.children : Node → NodeList
  | .text _ => .nil
  | .elem _ _ cs => cs

/-! ## The extraction passes (`WebCrawler._extract_*`) -/

/-- `_extract_title`: trimmed text of the first `title` tag, else `""`. -/
def extract_title (doc : Doc) : List Char :=
  match findFirstL (tagIs "title") doc with
  | some t => trimPy (getText t)
  | none => []

/-- `_extract_headings`: `for i in range(1, 7): headings[f'h{i}'] = [h.get_text().strip() for h in soup.find_all(f'h{i}')]`; the Python dict is modelled
as an association list in insertion order. -/
def extract_headings (doc : Doc) : List (String × List (List Char)) :=
  (List.range 6).foldl
    (fun acc i =>
      let tag := "h" ++ toString (i + 1)
      acc ++ [(tag, (findAllL (tagIs tag) doc).map fun h => trimPy (getText h))])
    []

/-- `_extract_paragraphs`: `[p.get_text().strip() for p in soup.find_all('p') if p.get_text().strip()]`. -/
def extract_paragraphs (doc : Doc) : List (List Char) :=
  ((findAllL (tagIs "p") doc).map fun p => trimPy (getText p)).filter
    fun t => !t.isEmpty

/-- `_extract_clean_text`: decomposes every `script`/`style` element of the
soup IN PLACE, then normalizes the remaining text.  The mutation is made
explicit: the result is the updated tree together with the text. -/
def extract_clean_text (doc : Doc) : Doc × List Char :=
  let doc2 := stripScriptStyle doc
  (doc2, normalizeText (getTextL doc2))

/-- `_extract_structured_data`: loops over
`find_all('script', type='application/ld+json')`, skips blocks with empty
text, appends each successfully parsed block; `parse` returning `none`
models a `json.JSONDecodeError`, which the loop swallows. -/
def extract_structured_data {J : Type} (parse : List Char → Option J) (doc : Doc) :
    List J :=
  (findAllL isLdJsonScript doc).foldl
    (fun acc sc =>
      let t := getText sc
      if t.isEmpty then acc
      else
        match parse t with
        | some d => acc ++ [d]
        | none => acc)
    []

/-- One extracted table of `_extract_tables`. -/
structure Table where
  headers : List (List Char)
  rows : List (List (List Char))
  raw_rows : List (List (List Char))
deriving DecidableEq

/-- `_extract_tables`: for each `table` tag, collect per `tr` the trimmed
texts of its `td`/`th` cells, keeping only rows with at least one cell; a
table whose surviving row list is empty is dropped; otherwise
`headers = rows[0] if rows else []`, `rows = rows[1:] if len(rows) > 1 else []`,
`raw_rows = rows`. -/
def extract_tables (doc : Doc) : List Table :=
  (findAllL (tagIs "table") doc).foldl
    (fun tables table =>
      let rows :=
        (findAllL (tagIs "tr") table.children).foldl
          (fun rows row =>
            let cells := (findAllL isCell row.children).map fun c => trimPy (getText c)
            if !cells.isEmpty then rows ++ [cells] else rows)
          []
      if !rows.isEmpty then
        tables ++ [{ headers := rows.headD [], rows := rows.tail, raw_rows := rows }]
      else tables)
    []

/-! ## Crawl boundary (`crawl_page`, `get_page_summary`) -/

/-- What the fetch (`session.get` + `raise_for_status` + HTML parsing)
delivers to the extraction code: a parsed document with its HTTP status
code, or the message of the `requests.RequestException` raised by a
transport failure (DNS failure, timeout, non-2xx response). -/
inductive FetchResult where
  | ok : Nat → Doc → FetchResult
  | err : List Char → FetchResult

/-- A value stored in one of the crawler's output dicts.  `jsons` holds
parsed JSON-LD blocks (of the abstract parse-result type `J`); `strs` holds
a list of string-like entries — for the `links`/`images` fields, which the
active code never produces, only the list length would ever be consumed, so
their entries are modelled by their text. -/
inductive Field (J : Type) where
  | s : List Char → Field J
  | n : Nat → Field J
  | b : Bool → Field J
  | headings : List (String × List (List Char)) → Field J
  | strs : List (List Char) → Field J
  | jsons : List J → Field J
  | tables : List Table → Field J

/-- A Python dict, modelled as an association list in insertion order. -/
abbrev Record (J : Type) := List (String × Field J)

/-- `crawl_page`: on a successful fetch, builds the success record by running
the passes in the order the dict literal evaluates them — note that
`_extract_clean_text` mutates the soup (decomposing every `script`/`style`
element), and `structured_data` and `tables` are extracted from the mutated
tree; on a transport failure, returns the failure record (`ts` stands in for
`time.time()`).  The exception is caught, never re-raised, so the embedding
is a total function. -/
def crawl_page {J : Type} (parse : List Char → Option J) (url : List Char)
    (ts : Nat) (res : FetchResult) : Record J :=
  match res with
  | .ok status doc =>
    let title := extract_title doc
    let headings := extract_headings doc
    let paragraphs := extract_paragraphs doc
    let (doc2, text_content) := extract_clean_text doc
    let structured_data := extract_structured_data parse doc2
    let tables := extract_tables doc2
    [("url", .s url),
     ("status_code", .n status),
     ("title", .s title),
     ("headings", .headings headings),
     ("paragraphs", .strs paragraphs),
     ("text_content", .s text_content),
     ("structured_data", .jsons structured_data),
     ("tables", .tables tables)]
  | .err msg =>
    [("url", .s url),
     ("error", .s msg),
     ("status", .s "failed".toList),
     ("crawl_timestamp", .n ts)]

/-- `get_page_summary`: crawls, returns the record unchanged if it carries an
`error` key, and otherwise builds the summary dict by indexing into the
record; a Python `KeyError` on a missing key is modelled by `none`. -/
def get_page_summary {J : Type} (parse : List Char → Option J) (url : List Char)
    (ts : Nat) (res : FetchResult) : Option (Record J) :=
  let page_data := crawl_page parse url ts res
  if (page_data.lookup "error").isSome then some page_data
  else
    match page_data.lookup "url", page_data.lookup "title",
        page_data.lookup "meta_description", page_data.lookup "headings",
        page_data.lookup "paragraphs", page_data.lookup "links",
        page_data.lookup "images", page_data.lookup "structured_data",
        page_data.lookup "text_content", page_data.lookup "crawl_timestamp" with
    | some u, some t, some md, some (.headings hs), some (.strs ps),
      some (.strs lks), some (.strs ims), some (.jsons sd), some (.s txt),
      some cts =>
      some [("url", u), ("title", t), ("meta_description", md),
        ("headings_count", .n (hs.foldl (fun a kv => a + kv.2.length) 0)),
        ("paragraphs_count", .n ps.length),
        ("links_count", .n lks.length),
        ("images_count", .n ims.length),
        ("has_structured_data", .b (decide (0 < sd.length))),
        ("text_preview",
          .s (if 500 < txt.length then txt.take 500 ++ "...".toList else txt)),
        ("crawl_timestamp", cts)]
    | _, _, _, _, _, _, _, _, _, _ => none

/-! ## Spec-side formulations

These definitions follow the wording of the specification (§4.1) rather than
the control flow of the Python source; the claim theorems compare them with
the source-translated passes above. -/

/-- Spec: "the trimmed text of the first `title` element found anywhere in
the document, or an empty string if none exists"; the first element found
anywhere is the head of the document-order element list. -/
def specTitle (doc : Doc) : List Char :=
  match (findAllL (tagIs "title") doc).head? with
  | some t => trimPy (getText t)
  | none => []

/-- Spec: "collects the trimmed text of every heading element at that level,
in document order". -/
def specHeadingLevel (tag : String) (doc : Doc) : List (List Char) :=
  (findAllL (tagIs tag) doc).map fun h => trimPy (getText h)

/-- Spec: "always returns all six keys even if a level has no headings". -/
def specHeadings (doc : Doc) : List (String × List (List Char)) :=
  [("h1", specHeadingLevel "h1" doc),
   ("h2", specHeadingLevel "h2" doc),
   ("h3", specHeadingLevel "h3" doc),
   ("h4", specHeadingLevel "h4" doc),
   ("h5", specHeadingLevel "h5" doc),
   ("h6", specHeadingLevel "h6" doc)]

/-- Spec: "collects the trimmed text of every paragraph element in document
order; paragraphs whose trimmed text is empty are excluded entirely". -/
def specParagraphs (doc : Doc) : List (List Char) :=
  ((findAllL (tagIs "p") doc).map fun p => trimPy (getText p)).filter
    fun t => t ≠ []

/-- Spec: "finds every `script` element whose `type` attribute equals
`application/ld+json`, attempts to parse its text content as JSON; on parse
failure the block is skipped ...; script elements with empty text content
are skipped without attempting to parse". -/
def specStructuredData {J : Type} (parse : List Char → Option J) (doc : Doc) :
    List J :=
  (findAllL isLdJsonScript doc).filterMap fun sc =>
    if (getText sc).isEmpty then none else parse (getText sc)

/-- Spec, per table: the surviving rows (each row's trimmed cell texts, rows
with zero cells dropped); an all-dropped table is omitted (`none`),
otherwise `headers` is the first surviving row, `rows` the rest, `raw_rows`
all of them. -/
def specTable (table : Node) : Option Table :=
  let rows :=
    ((findAllL (tagIs "tr") table.children).map fun row =>
        (findAllL isCell row.children).map fun c => trimPy (getText c)).filter
      fun r => r ≠ []
  if rows = [] then none
  else some { headers := rows.headD [], rows := rows.tail, raw_rows := rows }

/-- Spec: tables in document order, omitted tables dropped. -/
def specTables (doc : Doc) : List Table :=
  (findAllL (tagIs "table") doc).filterMap specTable

/-! ## Concrete example documents -/

/-- A JSON-LD script block with the given text content. -/
def ldScript (body : List Char) : Node :=
  .elem "script" [("type", "application/ld+json")] (nodes [.text body])

/-- A toy JSON parser for concrete examples: accepts exactly the text `"1"`
(as the value `1`) and rejects everything else, the way `json.loads` accepts
`"1"` and raises `JSONDecodeError` on, say, `"{"`. -/
def toyParse : List Char → Option Nat :=
  fun t => if t = ['1'] then some 1 else none

/-- A page whose head carries one valid JSON-LD block. -/
def ldDoc : Doc :=
  nodes [.elem "html" [] (nodes [ldScript ['1'], .text "hi".toList])]

/-- A page with one valid and one malformed JSON-LD block. -/
def twoBlockDoc : Doc :=
  nodes [.elem "html" []
    (nodes [ldScript ['1'], ldScript ['\x7b'], .text "hi".toList])]

/-- The adjacent-pair relation "no two consecutive spaces", the shape of
string the double-space split can no longer cut. -/
def noTwoSpaces (a b : Char) : Prop := a = ' ' → b ≠ ' '

/-- A fragment the normalization pipeline can emit: non-empty, free of line
separators, stripped (non-whitespace at both ends), and without two
consecutive spaces. -/
def goodFrag (f : List Char) : Prop :=
  f ≠ [] ∧ (∀ c ∈ f, isLineSep c = false) ∧
  (∀ c, f.head? = some c → isSpacePy c = false) ∧
  (∀ c, f.getLast? = some c → isSpacePy c = false) ∧
  List.Chain' noTwoSpaces f

/-! ## List-level lemmas -/

/-- An accumulator loop that appends at most one element per step is a
`filterMap`. -/
lemma foldl_toList_eq_filterMap {α β : Type} (step : List β → α → List β)
    (f : α → Option β) (hstep : ∀ acc x, step acc x = acc ++ (f x).toList) :
    ∀ (l : List α) (acc : List β), l.foldl step acc = acc ++ l.filterMap f := by
  intro l
  induction l with
  | nil => intro acc; simp
  | cons x l ih =>
    intro acc
    rw [List.foldl_cons, ih, hstep, List.filterMap_cons]
    cases f x <;> simp

/-- The row-collection loop of `_extract_tables` is a map-then-filter. -/
lemma foldl_rows_eq_filter {α β : Type} [DecidableEq β] (g : α → List β) :
    ∀ (l : List α) (acc : List (List β)),
      l.foldl
        (fun rows row =>
          let cells := g row
          if !cells.isEmpty then rows ++ [cells] else rows) acc
      = acc ++ (l.map g).filter fun r => r ≠ [] := by
  intro l
  induction l with
  | nil => intro acc; simp
  | cons x l ih =>
    intro acc
    rw [List.foldl_cons, ih]
    cases hx : g x <;> simp [hx]

/-- `find` is the first hit of `find_all`. -/
lemma findFirstL_eq (p : Node → Bool) (l : NodeList) :
    findFirstL p l = (findAllL p l).head? := by
  induction l using findFirstL.induct p with
  | case1 => simp [findFirstL, findAllL]
  | case2 s ns ih => simpa [findFirstL, findAllL] using ih
  | case3 t a cs ns hp => simp [findFirstL, findAllL, hp]
  | case4 t a cs ns hp hr ih1 ih2 =>
    have h1 : (findAllL p cs).head? = some hr := ih2.symm.trans ih1
    simp [findFirstL, findAllL, hp, ih1]
    cases hcs : findAllL p cs with
    | nil => rw [hcs] at h1; cases h1
    | cons x xs =>
      rw [hcs] at h1
      simp at h1
      simp [h1]
  | case5 t a cs ns hp hr ih1 ih2 =>
    have h1 : (findAllL p cs).head? = none := ih1.symm.trans hr
    have h2 : findAllL p cs = [] := by
      cases hcs : findAllL p cs with
      | nil => rfl
      | cons x xs => rw [hcs] at h1; cases h1
    simp [findFirstL, findAllL, hp, hr, h2, ih2]

/-- A nonempty stripped string contains a non-whitespace character (its last
one). -/
lemma trimPy_has_nonspace {l : List Char} (h : trimPy l ≠ []) :
    ∃ c ∈ trimPy l, isSpacePy c = false := by
  unfold trimPy at *
  refine ⟨_, List.getLast_mem h, ?_⟩
  have := List.rdropWhile_last_not isSpacePy (l.dropWhile isSpacePy) h
  simpa using this

/-! ## Lemmas for the clean-text normalization (claim C5) -/

lemma splitLinesPy_no_sep :
    ∀ l : List Char, ∀ piece ∈ splitLinesPy l, ∀ c ∈ piece, isLineSep c = false := by
  intro l
  induction l with
  | nil =>
    intro piece hp c hc
    simp [splitLinesPy] at hp
    subst hp
    cases hc
  | cons x rest ih =>
    intro piece hp c hc
    rw [splitLinesPy] at hp
    by_cases hx : isLineSep x
    · rw [if_pos hx] at hp
      rcases List.mem_cons.mp hp with h | h
      · subst h; cases hc
      · exact ih piece h c hc
    · rw [if_neg hx] at hp
      cases hrest : splitLinesPy rest with
      | nil =>
        rw [hrest] at hp
        simp [consHead] at hp
        subst hp
        rcases List.mem_singleton.mp hc with rfl
        simpa using hx
      | cons hd tl =>
        rw [hrest, consHead] at hp
        rcases List.mem_cons.mp hp with h | h
        · subst h
          rcases List.mem_cons.mp hc with rfl | hcm
          · simpa using hx
          · exact ih hd (hrest ▸ List.mem_cons_self hd tl) c hcm
        · exact ih piece (hrest ▸ List.mem_cons_of_mem hd h) c hc

lemma splitTwoSpaces_ne_nil : ∀ l : List Char, splitTwoSpaces l ≠ [] := by
  intro l
  induction l using splitTwoSpaces.induct with
  | case1 => simp [splitTwoSpaces]
  | case2 c => simp [splitTwoSpaces]
  | case3 c1 c2 rest h ih => simp [splitTwoSpaces, h]
  | case4 c1 c2 rest h ih =>
    rw [splitTwoSpaces, if_neg h]
    cases hs : splitTwoSpaces (c2 :: rest) with
    | nil => exact absurd hs ih
    | cons hd tl => simp [consHead]

lemma splitTwoSpaces_chars :
    ∀ l : List Char, ∀ piece ∈ splitTwoSpaces l, ∀ c ∈ piece, c ∈ l := by
  intro l
  induction l using splitTwoSpaces.induct with
  | case1 =>
    intro piece hp c hc
    simp [splitTwoSpaces] at hp
    subst hp
    cases hc
  | case2 c0 =>
    intro piece hp c hc
    simp [splitTwoSpaces] at hp
    subst hp
    exact hc
  | case3 c1 c2 rest h ih =>
    intro piece hp c hc
    rw [splitTwoSpaces, if_pos h] at hp
    rcases List.mem_cons.mp hp with hpe | hpe
    · subst hpe; cases hc
    · exact List.mem_cons_of_mem _ (List.mem_cons_of_mem _ (ih piece hpe c hc))
  | case4 c1 c2 rest h ih =>
    intro piece hp c hc
    rw [splitTwoSpaces, if_neg h] at hp
    cases hs : splitTwoSpaces (c2 :: rest) with
    | nil => exact absurd hs (splitTwoSpaces_ne_nil _)
    | cons hd tl =>
      rw [hs, consHead] at hp
      rcases List.mem_cons.mp hp with hpe | hpe
      · subst hpe
        rcases List.mem_cons.mp hc with rfl | hcm
        · exact List.mem_cons_self _ _
        · exact List.mem_cons_of_mem _ (ih hd (hs ▸ List.mem_cons_self hd tl) c hcm)
      · exact List.mem_cons_of_mem _ (ih piece (hs ▸ List.mem_cons_of_mem hd hpe) c hc)

lemma splitTwoSpaces_first_head :
    ∀ (l : List Char) hd tl, splitTwoSpaces l = hd :: tl →
      hd = [] ∨ hd.head? = l.head? := by
  intro l
  induction l using splitTwoSpaces.induct with
  | case1 =>
    intro hd tl h
    rw [splitTwoSpaces] at h
    cases h
    left; rfl
  | case2 c0 =>
    intro hd tl h
    rw [splitTwoSpaces] at h
    cases h
    right; rfl
  | case3 c1 c2 rest h ih =>
    intro hd tl hs
    rw [splitTwoSpaces, if_pos h] at hs
    cases hs
    left; rfl
  | case4 c1 c2 rest h ih =>
    intro hd tl hs
    rw [splitTwoSpaces, if_neg h] at hs
    cases hs2 : splitTwoSpaces (c2 :: rest) with
    | nil => exact absurd hs2 (splitTwoSpaces_ne_nil _)
    | cons hd2 tl2 =>
      rw [hs2, consHead] at hs
      cases hs
      right; rfl

lemma splitTwoSpaces_chain :
    ∀ l : List Char, ∀ piece ∈ splitTwoSpaces l, List.Chain' noTwoSpaces piece := by
  intro l
  induction l using splitTwoSpaces.induct with
  | case1 =>
    intro piece hp
    simp [splitTwoSpaces] at hp
    subst hp
    exact List.chain'_nil
  | case2 c0 =>
    intro piece hp
    simp [splitTwoSpaces] at hp
    subst hp
    exact List.chain'_singleton c0
  | case3 c1 c2 rest h ih =>
    intro piece hp
    rw [splitTwoSpaces, if_pos h] at hp
    rcases List.mem_cons.mp hp with hpe | hpe
    · subst hpe; exact List.chain'_nil
    · exact ih piece hpe
  | case4 c1 c2 rest h ih =>
    intro piece hp
    rw [splitTwoSpaces, if_neg h] at hp
    cases hs : splitTwoSpaces (c2 :: rest) with
    | nil => exact absurd hs (splitTwoSpaces_ne_nil _)
    | cons hd tl =>
      rw [hs, consHead] at hp
      rcases List.mem_cons.mp hp with hpe | hpe
      · subst hpe
        have hchd : List.Chain' noTwoSpaces hd := ih hd (hs ▸ List.mem_cons_self hd tl)
        cases hhd : hd with
        | nil => exact List.chain'_singleton c1
        | cons x h2 =>
          have hx : x = c2 := by
            rcases splitTwoSpaces_first_head (c2 :: rest) hd tl hs with he | he
            · rw [hhd] at he; cases he
            · rw [hhd] at he
              simpa using he
          rw [List.chain'_cons]
          constructor
          · subst hx
            intro hc1 hc2
            exact h ⟨hc1, hc2⟩
          · rw [hhd] at hchd
            exact hchd
      · exact ih piece (hs ▸ List.mem_cons_of_mem hd hpe)

lemma trimPy_subset {l : List Char} : ∀ c ∈ trimPy l, c ∈ l := by
  intro c hc
  unfold trimPy at hc
  have hpre := List.rdropWhile_prefix isSpacePy (l.dropWhile isSpacePy)
  have hsuf := List.dropWhile_suffix (l := l) isSpacePy
  exact hsuf.subset (hpre.subset hc)

lemma trimPy_chain {R : Char → Char → Prop} {l : List Char}
    (h : List.Chain' R l) : List.Chain' R (trimPy l) := by
  unfold trimPy
  have hpre := List.rdropWhile_prefix isSpacePy (l.dropWhile isSpacePy)
  have hsuf := List.dropWhile_suffix (l := l) isSpacePy
  exact List.Chain'.prefix (List.Chain'.suffix h hsuf) hpre

lemma trimPy_head_not_space {l : List Char} {c : Char}
    (h : (trimPy l).head? = some c) : isSpacePy c = false := by
  unfold trimPy at h
  have hpre := List.rdropWhile_prefix isSpacePy (l.dropWhile isSpacePy)
  obtain ⟨t, ht⟩ := hpre
  have hd : (l.dropWhile isSpacePy).head? = some c := by
    rw [← ht]
    cases hr : (l.dropWhile isSpacePy).rdropWhile isSpacePy with
    | nil => rw [hr] at h; cases h
    | cons x xs =>
      rw [hr] at h
      simpa using h
  have := List.head?_dropWhile_not isSpacePy l
  rw [hd] at this
  exact this

lemma trimPy_last_not_space {l : List Char} {c : Char}
    (h : (trimPy l).getLast? = some c) : isSpacePy c = false := by
  have hne : trimPy l ≠ [] := by
    intro h0
    rw [h0] at h
    cases h
  have hlast := List.rdropWhile_last_not isSpacePy (l.dropWhile isSpacePy) hne
  rw [List.getLast?_eq_getLast_of_ne_nil hne] at h
  have := Option.some.inj h
  rw [← this]
  simpa using hlast

lemma trimPy_eq_self {l : List Char}
    (hh : ∀ c, l.head? = some c → isSpacePy c = false)
    (hl : ∀ c, l.getLast? = some c → isSpacePy c = false) :
    trimPy l = l := by
  unfold trimPy
  have h1 : l.dropWhile isSpacePy = l := by
    cases l with
    | nil => rfl
    | cons x xs =>
      have hx : isSpacePy x = false := hh x rfl
      simp [List.dropWhile_cons, hx]
  rw [h1]
  rw [List.rdropWhile_eq_self_iff]
  intro hne
  have := hl (l.getLast hne) (List.getLast?_eq_getLast_of_ne_nil hne)
  simp [this]

lemma splitLinesPy_no_sep_eq {l : List Char}
    (h : ∀ c ∈ l, isLineSep c = false) : splitLinesPy l = [l] := by
  induction l with
  | nil => rfl
  | cons x rest ih =>
    rw [splitLinesPy, if_neg (by simp [h x (List.mem_cons_self x rest)]),
        ih fun c hc => h c (List.mem_cons_of_mem x hc), consHead]

lemma splitTwoSpaces_chain_eq {l : List Char}
    (h : List.Chain' noTwoSpaces l) : splitTwoSpaces l = [l] := by
  induction l using splitTwoSpaces.induct with
  | case1 => rfl
  | case2 c => rfl
  | case3 c1 c2 rest hc ih =>
    obtain ⟨h12, -⟩ := List.chain'_cons.mp h
    exact absurd hc fun hcc => h12 hcc.1 hcc.2
  | case4 c1 c2 rest hc ih =>
    rw [splitTwoSpaces, if_neg hc, ih (List.Chain'.tail h), consHead]

lemma fragmentsOf_good (l : List Char) : ∀ f ∈ fragmentsOf l, goodFrag f := by
  intro f hf
  unfold fragmentsOf at hf
  rw [List.mem_filter] at hf
  obtain ⟨hmem, hne'⟩ := hf
  have hfne : f ≠ [] := by simpa using hne'
  rw [List.mem_map] at hmem
  obtain ⟨g, hg, rfl⟩ := hmem
  rw [List.mem_flatMap] at hg
  obtain ⟨m, hm, hgm⟩ := hg
  rw [List.mem_map] at hm
  obtain ⟨line, hline, rfl⟩ := hm
  refine ⟨hfne, ?_, fun c hc => trimPy_head_not_space hc,
    fun c hc => trimPy_last_not_space hc,
    trimPy_chain (splitTwoSpaces_chain _ g hgm)⟩
  intro c hc
  have h1 : c ∈ g := trimPy_subset c hc
  have h2 : c ∈ trimPy line := splitTwoSpaces_chars _ g hgm c h1
  have h3 : c ∈ line := trimPy_subset c h2
  exact splitLinesPy_no_sep l line hline c h3

lemma joinSpace_good :
    ∀ frags : List (List Char), (∀ f ∈ frags, goodFrag f) →
      (∀ c ∈ joinSpace frags, isLineSep c = false) ∧
      (∀ c, (joinSpace frags).head? = some c → isSpacePy c = false) ∧
      (∀ c, (joinSpace frags).getLast? = some c → isSpacePy c = false) ∧
      List.Chain' noTwoSpaces (joinSpace frags) ∧
      (frags = [] ∨ joinSpace frags ≠ []) := by
  intro frags
  induction frags using joinSpace.induct with
  | case1 =>
    intro _
    refine ⟨?_, ?_, ?_, ?_, Or.inl rfl⟩ <;> simp [joinSpace]
  | case2 f =>
    intro hg
    obtain ⟨hne, hsep, hh, hl, hch⟩ := hg f (List.mem_singleton.mpr rfl)
    exact ⟨fun c hc => hsep c hc, hh, hl, hch, Or.inr hne⟩
  | case3 f rest hne0 ih =>
    intro hg
    cases rest with
    | nil => exact absurd rfl hne0
    | cons g rest0 =>
    obtain ⟨hfne, hfsep, hfh, hfl, hfch⟩ := hg f (List.mem_cons_self _ _)
    obtain ⟨ihsep, ihh, ihl, ihch, ihne⟩ :=
      ih fun x hx => hg x (List.mem_cons_of_mem f hx)
    have hsne : joinSpace (g :: rest0) ≠ [] := ihne.resolve_left (by simp)
    have hjoin : joinSpace (f :: g :: rest0) = f ++ ' ' :: joinSpace (g :: rest0) := rfl
    refine ⟨?_, ?_, ?_, ?_, Or.inr ?_⟩
    · intro c hc
      rw [hjoin] at hc
      rcases List.mem_append.mp hc with hcf | hcs
      · exact hfsep c hcf
      · rcases List.mem_cons.mp hcs with rfl | hcs2
        · rfl
        · exact ihsep c hcs2
    · intro c hc
      rw [hjoin, List.head?_append_of_ne_nil _ hfne] at hc
      exact hfh c hc
    · intro c hc
      rw [hjoin] at hc
      rw [show (' ' :: joinSpace (g :: rest0)) = [' '] ++ joinSpace (g :: rest0) from rfl,
          ← List.append_assoc, List.getLast?_append_of_ne_nil _ hsne] at hc
      exact ihl c hc
    · rw [hjoin]
      refine List.Chain'.append hfch ?_ ?_
      · rw [List.chain'_cons']
        refine ⟨?_, ihch⟩
        intro y hy
        intro _
        have := ihh y hy
        intro hy2
        rw [hy2] at this
        simp [isSpacePy] at this
      · intro x hx y hy
        simp only [List.head?_cons, Option.mem_def, Option.some.injEq] at hy
        subst hy
        intro hx2
        have := hfl x hx
        rw [hx2] at this
        simp [isSpacePy] at this
    · rw [hjoin]
      intro h0
      exact hfne (List.append_eq_nil.mp h0).1

lemma normalize_join_eq {frags : List (List Char)}
    (hgood : ∀ f ∈ frags, goodFrag f) :
    normalizeText (joinSpace frags) = joinSpace frags := by
  obtain ⟨hns, hh, hl, hch, -⟩ := joinSpace_good frags hgood
  unfold normalizeText fragmentsOf
  rw [splitLinesPy_no_sep_eq hns]
  rw [List.map_cons, List.map_nil, trimPy_eq_self hh hl]
  rw [List.flatMap_cons, List.flatMap_nil, List.append_nil]
  rw [splitTwoSpaces_chain_eq hch]
  rw [List.map_cons, List.map_nil, trimPy_eq_self hh hl]
  cases hs : joinSpace frags with
  | nil => rfl
  | cons x xs => simp [List.filter, joinSpace]

lemma normalizeText_idem (l : List Char) :
    normalizeText (normalizeText l) = normalizeText l :=
  normalize_join_eq (fragmentsOf_good l)

/-! ## Claim theorems -/

/-- C9: for every document, `extract_title` returns the trimmed text of the
first `title` element found anywhere in the document, and when no `title`
element exists it returns the empty string. -/
theorem extract_title_spec (doc : Doc) :
    extract_title doc = specTitle doc ∧
    (findAllL (tagIs "title") doc = [] → extract_title doc = []) := by
  have h := findFirstL_eq (tagIs "title") doc
  constructor
  · unfold extract_title specTitle
    rw [h]
  · intro hnone
    unfold extract_title
    rw [h, hnone]
    rfl

/-- Witness for C9 at the empty document, which has no `title` element. -/
theorem extract_title_spec_witness :
    findAllL (tagIs "title") (.nil : Doc) = [] ∧ extract_title (.nil : Doc) = [] :=
  ⟨rfl, (extract_title_spec .nil).2 rfl⟩

/-- C7: for every document, `extract_headings` returns exactly the six keys
`h1`..`h6` in order (each present even when that level has no headings), and
each key maps to the trimmed texts of that level's heading elements in
document order. -/
theorem extract_headings_spec (doc : Doc) :
    extract_headings doc = specHeadings doc ∧
    (extract_headings doc).map Prod.fst = ["h1", "h2", "h3", "h4", "h5", "h6"] :=
  ⟨rfl, rfl⟩

/-- C8: for every document, `extract_paragraphs` returns the trimmed
paragraph texts in document order with empty ones excluded, and no entry is
empty or whitespace-only. -/
theorem extract_paragraphs_spec (doc : Doc) :
    extract_paragraphs doc = specParagraphs doc ∧
    (extract_paragraphs doc).all
      (fun t => !t.isEmpty && t.any fun c => !isSpacePy c) = true := by
  constructor
  · unfold extract_paragraphs specParagraphs
    apply List.filter_congr
    intro t _
    cases t <;> simp
  · rw [List.all_eq_true]
    intro t ht
    unfold extract_paragraphs at ht
    rw [List.mem_filter] at ht
    obtain ⟨hmem, hne⟩ := ht
    have hnn : t ≠ [] := by simpa using hne
    obtain ⟨p, _, rfl⟩ := List.mem_map.mp hmem
    obtain ⟨c, hc, hcs⟩ := trimPy_has_nonspace hnn
    simp only [Bool.and_eq_true, List.any_eq_true]
    exact ⟨by simpa using hnn, c, hc, by simp [hcs]⟩

/-- C6: for every document and every JSON parser, `extract_structured_data`
returns, in document order, the successfully parsed contents of the
`application/ld+json` script blocks, skipping empty blocks without parsing
and silently skipping blocks that fail to parse; on a document with one
valid and one malformed block it returns just the one valid object. -/
theorem extract_structured_data_spec :
    (∀ (J : Type) (parse : List Char → Option J) (doc : Doc),
      extract_structured_data parse doc = specStructuredData parse doc) ∧
    extract_structured_data toyParse twoBlockDoc = [1] := by
  constructor
  · intro J parse doc
    unfold extract_structured_data specStructuredData
    refine (foldl_toList_eq_filterMap _
      (fun sc => if (getText sc).isEmpty then none else parse (getText sc))
      ?_ _ []).trans (List.nil_append _)
    intro acc sc
    by_cases h : (getText sc).isEmpty
    · simp [h]
    · cases hp : parse (getText sc) <;> simp [h, hp]
  · rfl

/-- C4: for every document, `extract_tables` visits each `table` in document
order, keeps per row the trimmed `td`/`th` cell texts, drops rows with zero
cells, omits tables whose surviving row list is empty, and otherwise emits
headers = first surviving row, rows = the rest, raw_rows = all of them. -/
theorem extract_tables_spec (doc : Doc) :
    extract_tables doc = specTables doc := by
  unfold extract_tables specTables
  refine (foldl_toList_eq_filterMap _ specTable ?_ _ []).trans (List.nil_append _)
  intro tables table
  simp only [foldl_rows_eq_filter, List.nil_append]
  unfold specTable
  set rows := ((findAllL (tagIs "tr") table.children).map fun row =>
      (findAllL isCell row.children).map fun c => trimPy (getText c)).filter
      (fun r => decide (r ≠ [])) with hrows
  by_cases h : rows = []
  · simp [h]
  · simp [h, List.isEmpty_iff]

/-- C3: a transport failure makes `crawl_page` return (never raise) a record
with exactly the keys `url`, `error`, `status` (valued `"failed"`) and
`crawl_timestamp`, and none of the extraction fields. -/
theorem crawl_page_failure_shape (J : Type) (parse : List Char → Option J)
    (url : List Char) (ts : Nat) (msg : List Char) :
    (crawl_page parse url ts (.err msg)).map Prod.fst =
      ["url", "error", "status", "crawl_timestamp"] ∧
    (crawl_page parse url ts (.err msg)).lookup "url" = some (.s url) ∧
    (crawl_page parse url ts (.err msg)).lookup "error" = some (.s msg) ∧
    (crawl_page parse url ts (.err msg)).lookup "status" = some (.s "failed".toList) ∧
    (crawl_page parse url ts (.err msg)).lookup "crawl_timestamp" = some (.n ts) ∧
    (crawl_page parse url ts (.err msg)).lookup "status_code" = none ∧
    (crawl_page parse url ts (.err msg)).lookup "title" = none ∧
    (crawl_page parse url ts (.err msg)).lookup "headings" = none ∧
    (crawl_page parse url ts (.err msg)).lookup "paragraphs" = none ∧
    (crawl_page parse url ts (.err msg)).lookup "text_content" = none ∧
    (crawl_page parse url ts (.err msg)).lookup "structured_data" = none ∧
    (crawl_page parse url ts (.err msg)).lookup "tables" = none :=
  ⟨rfl, rfl, rfl, rfl, rfl, rfl, rfl, rfl, rfl, rfl, rfl, rfl⟩

/-- C10: `get_page_summary` passes a failure record through unchanged, and
on every successful crawl the summary construction's lookups of
`meta_description`, `links`, `images` and `crawl_timestamp` fail (the
success record never contains them), so no summary is ever produced. -/
theorem get_page_summary_behavior (J : Type) (parse : List Char → Option J)
    (url : List Char) (ts : Nat) :
    (∀ status doc, get_page_summary parse url ts (.ok status doc) = none) ∧
    (∀ msg, get_page_summary parse url ts (.err msg) =
      some (crawl_page parse url ts (.err msg))) :=
  ⟨fun _ _ => rfl, fun _ => rfl⟩

/-- C1 (failing part, evaluated at a concrete page): the success record has
exactly the eight documented keys, but its `structured_data` value is `[]`
even though the structured-data pass applied to the fetched document yields
one object — `_extract_clean_text` decomposed every script element of the
shared soup before `_extract_structured_data` ran. -/
theorem crawl_page_structured_data_empty :
    (crawl_page toyParse "u".toList 7 (.ok 200 ldDoc)).map Prod.fst =
      ["url", "status_code", "title", "headings", "paragraphs", "text_content",
       "structured_data", "tables"] ∧
    (crawl_page toyParse "u".toList 7 (.ok 200 ldDoc)).lookup "structured_data" =
      some (.jsons []) ∧
    extract_structured_data toyParse ldDoc = [1] := by
  exact ⟨rfl, rfl, rfl⟩

/-- C2 (failing part, evaluated at a concrete page): `_extract_clean_text`
does not operate on a working copy — it changes the document itself, and the
structured-data pass returns different results before and after it runs. -/
theorem extract_clean_text_mutates :
    extract_structured_data toyParse ((extract_clean_text ldDoc).1) = [] ∧
    extract_structured_data toyParse ldDoc = [1] ∧
    (extract_clean_text ldDoc).1 ≠ ldDoc := by
  have h1 : extract_structured_data toyParse ((extract_clean_text ldDoc).1) = [] := rfl
  have h2 : extract_structured_data toyParse ldDoc = [1] := rfl
  refine ⟨h1, h2, fun h => ?_⟩
  rw [h, h2] at h1
  cases h1

/-- C5: the clean-text normalization is idempotent — re-applying the
line-split / strip / double-space-split / strip / drop-empties / single-space
join pipeline to the string `_extract_clean_text` produced returns that
string unchanged. -/
theorem extract_clean_text_idempotent (doc : Doc) :
    normalizeText ((extract_clean_text doc).2) = (extract_clean_text doc).2 :=
  normalizeText_idem _

end Oppwa
